import Mathlib

/-!
Verification development for the omaha repository (Go): the MTD-return
pipeline, its parallel executor, the sector aggregation, and the
cache/refresh server state.

Modelling conventions, used throughout:
* `decimal.Decimal` values (close prices, returns) are modelled as exact
  rationals `ℚ`; the library's display-precision rounding is abstracted
  to the exact value.
* `float64` return values are modelled as `Option ℚ`: `none` models
  `math.NaN()` (the value the code stores in error-path `MTDResult`s),
  `some q` models a finite float of value `q`.  `decimal.Decimal.Float64`
  on a finite decimal always yields a finite float, hence `decimalToFloat`
  below is `some`-valued.
* Go `error` values are modelled as `Except String`, carrying the message.
* channel/goroutine nondeterminism is modelled by quantifying over the
  order in which completed per-item results are received.
-/

namespace Omaha

/-! ### Return calculator: `getMTDReturn` (src/unnamed/part_000, lines 245-297)

The function iterates the bar sequence tracking the first and last close
and a bar count, then checks the iterator error, then the
`!firstSet || firstClose.IsZero()` guard, and finally computes
`lastClose.Div(firstClose).Sub(1)` and narrows it with `Float64`. -/

/-- One price bar produced by the market-data collaborator
(`iter.Bar()`: a timestamp and a close price). -/
structure PriceBar where
  timestamp : Int
  close : ℚ
deriving DecidableEq, Repr

/-- The `MTDResult` struct of the Go code.  `Return` is the `float64`
field: `none` models `math.NaN()`. -/
structure MTDResult where
  «Return» : Option ℚ
  BarCount : Nat
  FirstClose : ℚ
  LastClose : ℚ
deriving DecidableEq, Repr

/-- The loop state of `getMTDReturn`'s `for iter.Next()` loop:
`var firstClose, lastClose decimal.Decimal` (zero values), `firstSet :=
false`, `barCount := 0`. -/
structure ScanState where
  firstClose : ℚ
  firstSet : Bool
  lastClose : ℚ
  barCount : Nat
deriving DecidableEq, Repr

def scanInit : ScanState := ⟨0, false, 0, 0⟩

/-- One iteration of the bar loop: `barCount++`; `if !firstSet {
firstClose = bar.Close; firstSet = true }`; `lastClose = bar.Close`. -/
def scanStep (st : ScanState) (bar : PriceBar) : ScanState :=
  { firstClose := if st.firstSet then st.firstClose else bar.close
    firstSet := true
    lastClose := bar.close
    barCount := st.barCount + 1 }

/-- `decimal.Decimal.Float64` on a finite decimal: narrows to a finite
float (never NaN); the value is modelled exactly. -/
def decimalToFloat (q : ℚ) : Option ℚ := some q

/-- `getMTDReturn` (src/unnamed/part_000, lines 245-297), as a function of
the bar sequence the chart iterator yields and the iterator error
(`iter.Err()`).  The network-parameter plumbing (symbol, date range) does
not affect the computation once the bar sequence is fixed. -/
def getMTDReturn (bars : List PriceBar) (fetchErr : Option String) :
    Except String MTDResult :=
  let st := bars.foldl scanStep scanInit
  match fetchErr with
  | some e => .error e
  | none =>
    if st.firstSet = false ∨ st.firstClose = 0 then .error "no data"
    else .ok { «Return» := decimalToFloat (st.lastClose / st.firstClose - 1)
               BarCount := st.barCount
               FirstClose := st.firstClose
               LastClose := st.lastClose }

/-- Once `firstSet` is true, further bars never change `firstClose`, and
`firstSet` stays true. -/
theorem foldl_scanStep_firstSet (bars : List PriceBar) (st : ScanState)
    (h : st.firstSet = true) :
    (bars.foldl scanStep st).firstSet = true ∧
      (bars.foldl scanStep st).firstClose = st.firstClose := by
  induction bars generalizing st with
  | nil => exact ⟨h, rfl⟩
  | cons b bs ih =>
    simpa [scanStep, h] using ih ⟨st.firstClose, true, b.close, st.barCount + 1⟩ rfl

/-- On a nonempty bar list the scan records the first bar's close as
`firstClose` and sets `firstSet`. -/
theorem foldl_scanStep_cons (b : PriceBar) (bs : List PriceBar) :
    ((b :: bs).foldl scanStep scanInit).firstSet = true ∧
      ((b :: bs).foldl scanStep scanInit).firstClose = b.close := by
  have := foldl_scanStep_firstSet bs ⟨b.close, true, b.close, 1⟩ rfl
  simpa [scanInit, scanStep] using this

/-- The success value of `getMTDReturn` always carries a finite (non-NaN)
return equal to `lastClose/firstClose - 1`. -/
theorem getMTDReturn_ok_return (bars : List PriceBar) (fe : Option String)
    (r : MTDResult) (h : getMTDReturn bars fe = .ok r) :
    r.Return = decimalToFloat (r.LastClose / r.FirstClose - 1) ∧
      r.Return ≠ none := by
  unfold getMTDReturn at h
  cases fe with
  | some e => simp at h
  | none =>
    by_cases hc : (bars.foldl scanStep scanInit).firstSet = false ∨
        (bars.foldl scanStep scanInit).firstClose = 0
    · simp [hc] at h
    · simp [hc] at h
      subst h
      exact ⟨rfl, by simp [decimalToFloat]⟩

/-- C4 (counterexample): the claim asserts two distinguishable errors,
`NoData` for an empty bar sequence and `InvalidFirstClose` for a zero
first close.  The code's single guard `!firstSet || firstClose.IsZero()`
returns the identical error value (message `no data`) in both cases. -/
theorem getMTDReturn_errors_not_distinct :
    getMTDReturn [] none = .error "no data" ∧
      getMTDReturn [⟨0, 0⟩] none = .error "no data" ∧
      ¬ getMTDReturn [] none ≠ getMTDReturn [⟨0, 0⟩] none := by
  refine ⟨rfl, ?_, ?_⟩ <;> simp [getMTDReturn, scanStep, scanInit]

/-- C4 (amended): `getMTDReturn` (with no iterator error) fails, with the
single error `no data`, exactly when the bar sequence yields zero bars or
the first bar's close price is exactly zero; the two failure conditions
produce the same, indistinguishable error. -/
theorem getMTDReturn_noData_iff (bars : List PriceBar) :
    getMTDReturn bars none = .error "no data" ↔
      bars = [] ∨ ∃ b bs, bars = b :: bs ∧ b.close = 0 := by
  cases bars with
  | nil => simp [getMTDReturn, scanInit]
  | cons b bs =>
    have h1 := (foldl_scanStep_cons b bs).1
    have h2 := (foldl_scanStep_cons b bs).2
    simp only [List.foldl_cons] at h1 h2
    constructor
    · intro he
      refine Or.inr ⟨b, bs, rfl, ?_⟩
      by_contra hz
      have hz2 : ¬(List.foldl scanStep (scanStep scanInit b) bs).firstClose = 0 := by
        rw [h2]; exact hz
      simp [getMTDReturn, h1, hz2] at he
    · rintro (h0 | ⟨b2, bs2, heq, hz⟩)
      · cases h0
      · injection heq with hb hbs
        subst hb; subst hbs
        have hz2 : (List.foldl scanStep (scanStep scanInit b) bs).firstClose = 0 := by
          rw [h2]; exact hz
        simp [getMTDReturn, hz2]

/-- C7: a bar sequence with exactly one bar whose close is nonzero
succeeds with `firstClose = lastClose` and return exactly `0`; and every
success carries `lastClose/firstClose - 1` narrowed by `decimalToFloat`,
which is never NaN (`none`). -/
theorem getMTDReturn_single_bar_and_exact (t : Int) (c : ℚ) (hc : c ≠ 0) :
    getMTDReturn [⟨t, c⟩] none = .ok ⟨some 0, 1, c, c⟩ ∧
      ∀ (bars : List PriceBar) (fe : Option String) (r : MTDResult),
        getMTDReturn bars fe = .ok r →
          r.Return = decimalToFloat (r.LastClose / r.FirstClose - 1) ∧
            r.Return ≠ none := by
  refine ⟨?_, fun bars fe r h => getMTDReturn_ok_return bars fe r h⟩
  simp [getMTDReturn, scanStep, scanInit, hc, decimalToFloat, div_self hc]

/-- Witness for C7 at the concrete single-bar input with close `2`. -/
theorem getMTDReturn_single_bar_and_exact_witness :
    getMTDReturn [⟨0, 2⟩] none = .ok ⟨some 0, 1, 2, 2⟩ := by
  exact (getMTDReturn_single_bar_and_exact 0 2 (by norm_num)).1

/-! ### Parallel executor: `ProcessInParallel` (src/parallel.go, lines 14-105)

The executor dispatches every item to exactly one worker; completed
`(item, value, err)` triples arrive on the `results` channel in an
arbitrary order.  We model one complete, uncancelled run as a fold over
the completions listed in completion order.  Note that the channel struct
declares an `index` field (line 35) that is never assigned (lines 53-62):
the collection loop instead re-scans `items` for the first entry equal to
the completed item by value (lines 96-101). -/

/-- Index of the first input item equal by value to `x`: the scan
`for i, item := range items { if any(item) == any(result.item) { ...;
break } }` of src/parallel.go, lines 96-101. -/
def firstIdx {T : Type} [DecidableEq T] (items : List T) (x : T) : Option Nat :=
  match items with
  | [] => none
  | it :: rest => if it = x then some 0 else (firstIdx rest x).map (· + 1)

/-- A `some` answer of `firstIdx` is in range and points at an item equal
to the one searched for. -/
theorem firstIdx_get {T : Type} [DecidableEq T] (items : List T) (x : T)
    (i : Nat) (h : firstIdx items x = some i) :
    ∃ hi : i < items.length, items.get ⟨i, hi⟩ = x := by
  induction items generalizing i with
  | nil => simp [firstIdx] at h
  | cons it rest ih =>
    by_cases he : it = x
    · simp [firstIdx, he] at h
      subst h
      exact ⟨by simp, he⟩
    · simp [firstIdx, he] at h
      obtain ⟨j, hj, rfl⟩ := h
      obtain ⟨hlt, hget⟩ := ih j hj
      exact ⟨by simpa using Nat.succ_lt_succ hlt, hget⟩

/-- One receive from the `results` channel (src/parallel.go, lines
89-102): an error is appended to the error list; a success value is
written into the result slice at the first index whose item equals the
completed item by value (no write if no equal item exists). -/
def collectOne {T R : Type} [DecidableEq T] (items : List T)
    (acc : List R × List String) (a : T × Except String R) :
    List R × List String :=
  match a.2 with
  | .error e => (acc.1, acc.2 ++ [e])
  | .ok v =>
    match firstIdx items a.1 with
    | some i => (acc.1.set i v, acc.2)
    | none => acc

/-- `ProcessInParallel` (src/parallel.go) for a run that is not
cancelled: an empty input returns `(nil, nil)` before any dispatch;
otherwise the result slice starts as `make([]R, len(items))` (zero
values) and every completion `(x, processFunc x)` is folded in, in the
completion order given by `order` (a permutation of `items` when every
item runs to completion). -/
def ProcessInParallel {T R : Type} [DecidableEq T] [Inhabited R]
    (items : List T) (processFunc : T → Except String R) (order : List T) :
    List R × List String :=
  if items.isEmpty then ([], [])
  else
    (order.map fun x => (x, processFunc x)).foldl (collectOne items)
      (List.replicate items.length default, [])

/-- Folding completions of items drawn from `items` preserves the slice
length and keeps the zero value at every position whose item fails. -/
theorem collect_fold_invariant {T R : Type} [DecidableEq T] [Inhabited R]
    (items : List T) (f : T → Except String R) (order : List T)
    (hsub : ∀ x ∈ order, x ∈ items) (acc : List R × List String)
    (hlen : acc.1.length = items.length)
    (hzero : ∀ i (hi : i < items.length),
      (f (items.get ⟨i, hi⟩)).isOk = false → acc.1[i]? = some default) :
    (((order.map fun x => (x, f x)).foldl (collectOne items) acc).1.length
        = items.length) ∧
      ∀ i (hi : i < items.length), (f (items.get ⟨i, hi⟩)).isOk = false →
        ((order.map fun x => (x, f x)).foldl (collectOne items) acc).1[i]?
          = some default := by
  induction order generalizing acc with
  | nil => exact ⟨hlen, hzero⟩
  | cons x xs ih =>
    simp only [List.map_cons, List.foldl_cons]
    refine ih (fun y hy => hsub y (List.mem_cons_of_mem _ hy))
      (collectOne items acc (x, f x)) ?_ ?_
    · cases hfx : f x with
      | error e => simpa [collectOne, hfx] using hlen
      | ok v =>
        cases hidx : firstIdx items x with
        | none => simpa [collectOne, hfx, hidx] using hlen
        | some j => simpa [collectOne, hfx, hidx] using hlen
    · intro i hi hfail
      cases hfx : f x with
      | error e => simpa [collectOne, hfx] using hzero i hi hfail
      | ok v =>
        cases hidx : firstIdx items x with
        | none => simpa [collectOne, hfx, hidx] using hzero i hi hfail
        | some j =>
          obtain ⟨hj, hgetj⟩ := firstIdx_get items x j hidx
          have hne : j ≠ i := by
            intro hji
            subst hji
            rw [hgetj] at hfail
            rw [hfx] at hfail
            simp [Except.isOk, Except.toBool] at hfail
          simp only [collectOne, hfx, hidx]
          rw [List.getElem?_set_ne hne]
          exact hzero i hi hfail

/-- C9: on the empty input the executor returns `(nil, nil)` without
invoking the processing function (the output is independent of it); and
on every non-empty input whose items all run to completion (the
completion order is a permutation of the input), the result slice has the
input's length and holds the zero value at every position whose item
failed. -/
theorem processInParallel_empty_and_zero_on_failure {T R : Type}
    [DecidableEq T] [Inhabited R] :
    (∀ (f : T → Except String R) (order : List T),
        ProcessInParallel [] f order = ([], [])) ∧
      ∀ (items : List T) (f : T → Except String R) (order : List T),
        order.Perm items → items ≠ [] →
          ((ProcessInParallel items f order).1.length = items.length ∧
            ∀ i (hi : i < items.length), (f (items.get ⟨i, hi⟩)).isOk = false →
              (ProcessInParallel items f order).1[i]? = some default) := by
  constructor
  · intro f order
    simp [ProcessInParallel]
  · intro items f order hperm hne
    have hsub : ∀ x ∈ order, x ∈ items := fun x hx => hperm.mem_iff.mp hx
    have hinv := collect_fold_invariant items f order hsub
      (List.replicate items.length default, [])
      (by simp)
      (fun i hi _ => by simp [List.getElem?_replicate_of_lt hi])
    have hitems : items.isEmpty = false := by
      cases items with
      | nil => exact absurd rfl hne
      | cons a l => rfl
    constructor
    · simpa [ProcessInParallel, hitems] using hinv.1
    · intro i hi hfail
      simpa [ProcessInParallel, hitems] using hinv.2 i hi hfail

/-- Witness for C9 at `items = [0, 1]`, `f` failing on `1`, completion
order `[1, 0]`. -/
theorem processInParallel_empty_and_zero_on_failure_witness :
    (ProcessInParallel ([] : List Nat)
        (fun _ => (Except.ok 7 : Except String Nat)) [] = ([], [])) ∧
      (ProcessInParallel [0, 1]
          (fun n => if n = 0 then Except.ok 7 else Except.error "x")
          [1, 0]).1.length = 2 ∧
        (ProcessInParallel [0, 1]
            (fun n => if n = 0 then Except.ok 7 else Except.error "x")
            [1, 0]).1[1]? = some default := by
  refine ⟨processInParallel_empty_and_zero_on_failure.1 _ [], ?_, ?_⟩
  · exact (processInParallel_empty_and_zero_on_failure.2 [0, 1] _ [1, 0]
      (by decide) (by decide)).1
  · exact (processInParallel_empty_and_zero_on_failure.2 [0, 1] _ [1, 0]
      (by decide) (by decide)).2 1 (by decide) (by decide)

/-- C1 (evaluation at the failing input): with the duplicate input
`[0, 0]` and a processing function succeeding with `5` on every item, the
value-equality correlation writes both completions into index `0` and
leaves index `1` at the zero value: the slice is `[5, 0]`, not the
`[5, 5]` that index-identity correlation requires; item 1's completed
result never lands in its own position. -/
theorem processInParallel_duplicate_misplaces :
    ProcessInParallel [0, 0] (fun _ => (Except.ok 5 : Except String Nat))
        [0, 0] = ([5, 0], []) ∧
      ([5, 0] : List Nat) ≠ [5, 5] := by
  constructor
  · rfl
  · decide

/-- C8: the return calculator is a deterministic function of its inputs
(the bar sequence and the iterator error): equal inputs give the identical
`MTDResult` or the identical error. -/
theorem getMTDReturn_deterministic (bars1 bars2 : List PriceBar)
    (fe1 fe2 : Option String) (hb : bars1 = bars2) (hf : fe1 = fe2) :
    getMTDReturn bars1 fe1 = getMTDReturn bars2 fe2 := by
  rw [hb, hf]

/-- Witness for C8 at a concrete input. -/
theorem getMTDReturn_deterministic_witness :
    getMTDReturn [⟨0, 3⟩] none = getMTDReturn [⟨0, 3⟩] none :=
  getMTDReturn_deterministic [⟨0, 3⟩] [⟨0, 3⟩] none none rfl rfl

/-! ### Refresh pipeline: `getMTDResults` (src/unnamed/part_000, lines 410-557)

After fetching tickers and sectors, the function runs a worker pool over
the jobs, collects completions from the `results` channel in arrival
order, builds `validResults` and the `sectorData` map incrementally,
sorts the valid results by return descending and the sector summaries by
average return descending, and returns the sorted valid results (the
error return is always nil). -/

/-- One `(ticker, sector)` pair from `getSP500Tickers`, the payload of a
dispatched job (`jobResult{ticker: ..., sector: ...}`). -/
structure Instrument where
  ticker : String
  sector : String
deriving DecidableEq, Repr

/-- The `Result` struct of part_000 (lines 302-309).  `FirstClose` and
`LastClose` hold the decimal values whose `String()` rendering the code
stores. -/
structure GoResult where
  Ticker : String
  Sector : String
  «Return» : ℚ
  BarCount : Nat
  FirstClose : ℚ
  LastClose : ℚ
deriving DecidableEq, Repr

/-- The `SectorReturn` struct of part_000 (lines 311-315). -/
structure SectorReturn where
  Sector : String
  AvgReturn : ℚ
  TickerCount : Nat
deriving DecidableEq, Repr

/-- The market-data collaborator: for each ticker, the bar sequence the
chart iterator yields and the iterator error. -/
def MarketData : Type := String → List PriceBar × Option String

/-- A worker's processing of one job (part_000 lines 457-468):
`getMTDReturn(j.ticker, start, end)`, tagged with the job. -/
def processJob (data : MarketData) (job : Instrument) :
    Instrument × Except String MTDResult :=
  (job, getMTDReturn (data job.ticker).1 (data job.ticker).2)

/-- The state of the collection loop (part_000 lines 431-508):
`validResults`, `errs`, and the `sectorData` map (`map[string]struct{
totalReturn float64; count int }`), modelled as an association list in
key-insertion order with entries `(sector, totalReturn, count)`. -/
structure CollectSt where
  validResults : List GoResult
  errs : List String
  sectorData : List (String × ℚ × Nat)
deriving DecidableEq, Repr

def collectInit : CollectSt := ⟨[], [], []⟩

/-- The `Result{...}` literal built from a successful job (part_000
lines 493-500).  On the success path `MTDResult.Return` is always `some`
(`getMTDReturn_ok_return`), so `getD 0` merely strips the `Option`. -/
def mkGoResult (job : Instrument) (m : MTDResult) : GoResult :=
  { Ticker := job.ticker
    Sector := job.sector
    «Return» := m.Return.getD 0
    BarCount := m.BarCount
    FirstClose := m.FirstClose
    LastClose := m.LastClose }

/-- The read-modify-write `sd := sectorData[res.sector]; sd.totalReturn
+= result.Return; sd.count++; sectorData[res.sector] = sd` (part_000
lines 503-507) on the association-list model of the map: update the
sector's entry, or append a fresh `(sector, return, 1)` entry. -/
def upsertSector : List (String × ℚ × Nat) → String → ℚ → List (String × ℚ × Nat)
  | [], sec, ret => [(sec, ret, 1)]
  | (s, t, c) :: rest, sec, ret =>
    if s = sec then (s, t + ret, c + 1) :: rest
    else (s, t, c) :: upsertSector rest sec ret

/-- One receive of the collection loop (part_000 lines 486-508): an
error appends `"<ticker>: <err>"` to `errs`; a success appends the built
`Result` to `validResults` and updates `sectorData`. -/
def collectStep (st : CollectSt) (a : Instrument × Except String MTDResult) :
    CollectSt :=
  match a.2 with
  | .error e => { st with errs := st.errs ++ [a.1.ticker ++ ": " ++ e] }
  | .ok m =>
    let r := mkGoResult a.1 m
    { validResults := st.validResults ++ [r]
      errs := st.errs
      sectorData := upsertSector st.sectorData r.Sector r.Return }

/-- Insertion step realizing `sort.Slice(validResults, func(i, j int)
bool { return validResults[i].Return > validResults[j].Return })`
(part_000 lines 520-523): `r` is placed before the first element whose
return is strictly smaller. -/
def insertByReturn (r : GoResult) : List GoResult → List GoResult
  | [] => [r]
  | x :: xs => if x.Return < r.Return then r :: x :: xs else x :: insertByReturn r xs

def sortByReturnDesc (l : List GoResult) : List GoResult :=
  l.foldr insertByReturn []

/-- Conversion of `sectorData` to the `sectorReturns` slice (part_000
lines 526-533): `AvgReturn = data.totalReturn / float64(data.count)`. -/
def mkSectorReturns (sd : List (String × ℚ × Nat)) : List SectorReturn :=
  sd.map fun e => ⟨e.1, e.2.1 / (e.2.2 : ℚ), e.2.2⟩

/-- Insertion step realizing `sort.Slice(sectorReturns, ...)` (part_000
lines 536-538), descending by `AvgReturn`. -/
def insertByAvg (r : SectorReturn) : List SectorReturn → List SectorReturn
  | [] => [r]
  | x :: xs => if x.AvgReturn < r.AvgReturn then r :: x :: xs else x :: insertByAvg r xs

def sortByAvgDesc (l : List SectorReturn) : List SectorReturn :=
  l.foldr insertByAvg []

/-- The post-fetch pipeline of `getMTDResults` (part_000 lines 437-556)
for a run in which every dispatched job completes: completions are
received in arrival order `order` (a permutation of the job list in the
theorems below); returns the sorted valid results (the function's return
value) and the sorted sector summaries (its CSV side output). -/
def getMTDResultsCore (order : List Instrument) (data : MarketData) :
    List GoResult × List SectorReturn :=
  let st := (order.map (processJob data)).foldl collectStep collectInit
  (sortByReturnDesc st.validResults, sortByAvgDesc (mkSectorReturns st.sectorData))

/-- Membership in `insertByReturn`. -/
theorem mem_insertByReturn (y r : GoResult) (l : List GoResult) :
    y ∈ insertByReturn r l ↔ y = r ∨ y ∈ l := by
  induction l with
  | nil => simp [insertByReturn]
  | cons x xs ih =>
    by_cases h : x.Return < r.Return
    · simp [insertByReturn, h]
    · simp [insertByReturn, h, ih]
      tauto

/-- `insertByReturn` preserves sortedness (non-increasing by return). -/
theorem pairwise_insertByReturn (r : GoResult) (l : List GoResult)
    (h : l.Pairwise fun a b => b.Return ≤ a.Return) :
    (insertByReturn r l).Pairwise fun a b => b.Return ≤ a.Return := by
  induction l with
  | nil => simp [insertByReturn]
  | cons x xs ih =>
    rw [List.pairwise_cons] at h
    by_cases hlt : x.Return < r.Return
    · simp only [insertByReturn, if_pos hlt]
      rw [List.pairwise_cons]
      refine ⟨?_, List.pairwise_cons.mpr h⟩
      intro y hy
      rcases List.mem_cons.mp hy with rfl | hy2
      · exact le_of_lt hlt
      · exact (h.1 y hy2).trans (le_of_lt hlt)
    · simp only [insertByReturn, if_neg hlt]
      rw [List.pairwise_cons]
      refine ⟨?_, ih h.2⟩
      intro y hy
      rcases (mem_insertByReturn y r xs).mp hy with rfl | hy2
      · exact not_lt.mp hlt
      · exact h.1 y hy2

/-- The output of `sortByReturnDesc` is sorted non-increasing by return. -/
theorem sortByReturnDesc_sorted (l : List GoResult) :
    (sortByReturnDesc l).Pairwise fun a b => b.Return ≤ a.Return := by
  induction l with
  | nil => simp [sortByReturnDesc]
  | cons x xs ih => exact pairwise_insertByReturn x _ ih

/-- `insertByReturn` permutes the inserted cons. -/
theorem perm_insertByReturn (r : GoResult) (l : List GoResult) :
    (insertByReturn r l).Perm (r :: l) := by
  induction l with
  | nil => simp [insertByReturn]
  | cons x xs ih =>
    by_cases h : x.Return < r.Return
    · simp [insertByReturn, h]
    · simp only [insertByReturn, if_neg h]
      exact (ih.cons x).trans (List.Perm.swap r x xs)

/-- `sortByReturnDesc` permutes its input. -/
theorem perm_sortByReturnDesc (l : List GoResult) :
    (sortByReturnDesc l).Perm l := by
  induction l with
  | nil => simp [sortByReturnDesc]
  | cons x xs ih =>
    exact (perm_insertByReturn x (sortByReturnDesc xs)).trans (ih.cons x)

/-- Membership in `insertByAvg`. -/
theorem mem_insertByAvg (y r : SectorReturn) (l : List SectorReturn) :
    y ∈ insertByAvg r l ↔ y = r ∨ y ∈ l := by
  induction l with
  | nil => simp [insertByAvg]
  | cons x xs ih =>
    by_cases h : x.AvgReturn < r.AvgReturn
    · simp [insertByAvg, h]
    · simp [insertByAvg, h, ih]
      tauto

/-- Membership in `sortByAvgDesc`. -/
theorem mem_sortByAvgDesc (y : SectorReturn) (l : List SectorReturn) :
    y ∈ sortByAvgDesc l ↔ y ∈ l := by
  induction l with
  | nil => simp [sortByAvgDesc]
  | cons x xs ih =>
    simp only [sortByAvgDesc, List.foldr_cons] at ih ⊢
    rw [mem_insertByAvg]
    simp [ih]

/-- C5: for every non-empty instrument list in which at least one
instrument produces valid bars, the items sequence of the ResultSet a
refresh returns (the sorted `validResults`) is sorted non-increasing by
return value, whatever order completions arrive in. -/
theorem getMTDResults_items_sorted (jobs order : List Instrument)
    (data : MarketData) (hperm : order.Perm jobs) (hne : jobs ≠ [])
    (hvalid : ∃ j ∈ jobs,
      (getMTDReturn (data j.ticker).1 (data j.ticker).2).isOk = true) :
    ((getMTDResultsCore order data).1).Pairwise
      fun a b => b.Return ≤ a.Return :=
  sortByReturnDesc_sorted _

/-- Witness for C5: two instruments, both with valid two-bar data,
completions arriving in reversed order. -/
theorem getMTDResults_items_sorted_witness :
    ((getMTDResultsCore
        [⟨"XOM", "Energy"⟩, ⟨"AAPL", "Tech"⟩]
        (fun t => if t = "AAPL" then ([⟨0, 100⟩, ⟨1, 110⟩], none)
                  else ([⟨0, 50⟩, ⟨1, 45⟩], none))).1).Pairwise
      (fun a b => b.Return ≤ a.Return) :=
  getMTDResults_items_sorted
    [⟨"AAPL", "Tech"⟩, ⟨"XOM", "Energy"⟩]
    [⟨"XOM", "Energy"⟩, ⟨"AAPL", "Tech"⟩]
    (fun t => if t = "AAPL" then ([⟨0, 100⟩, ⟨1, 110⟩], none)
              else ([⟨0, 50⟩, ⟨1, 45⟩], none))
    (by decide) (by decide)
    ⟨⟨"AAPL", "Tech"⟩, by decide, by decide⟩

/-- Sum of the returns of the items of `l` whose sector is `sec`. -/
def sumReturns (l : List GoResult) (sec : String) : ℚ :=
  ((l.filter fun r => decide (r.Sector = sec)).map fun r => r.Return).sum

/-- Number of items of `l` whose sector is `sec`. -/
def countSector (l : List GoResult) (sec : String) : Nat :=
  (l.filter fun r => decide (r.Sector = sec)).length

/-- The keys of the association-list model of `sectorData`. -/
def keysOf (sd : List (String × ℚ × Nat)) : List String := sd.map fun e => e.1

/-- Relation maintained between the collected `validResults` and the
`sectorData` map: keys are unique, each entry holds exactly the running
sum and count of the collected items of its sector, and every collected
item's sector is a key. -/
def SectorInv (vr : List GoResult) (sd : List (String × ℚ × Nat)) : Prop :=
  (keysOf sd).Nodup ∧
    (∀ e ∈ sd, e.2.1 = sumReturns vr e.1 ∧ e.2.2 = countSector vr e.1 ∧
      0 < e.2.2) ∧
    ∀ r ∈ vr, r.Sector ∈ keysOf sd

theorem sumReturns_append (vr : List GoResult) (r : GoResult) (s : String) :
    sumReturns (vr ++ [r]) s
      = sumReturns vr s + (if r.Sector = s then r.Return else 0) := by
  by_cases h : r.Sector = s <;>
    simp [sumReturns, List.filter_append, h]

theorem countSector_append (vr : List GoResult) (r : GoResult) (s : String) :
    countSector (vr ++ [r]) s
      = countSector vr s + (if r.Sector = s then 1 else 0) := by
  by_cases h : r.Sector = s <;>
    simp [countSector, List.filter_append, h]

theorem sumReturns_eq_zero (vr : List GoResult) (s : String)
    (h : ∀ r ∈ vr, r.Sector ≠ s) : sumReturns vr s = 0 := by
  have : vr.filter (fun r => decide (r.Sector = s)) = [] := by
    simp only [List.filter_eq_nil_iff]
    intro r hr
    simpa using h r hr
  simp [sumReturns, this]

theorem countSector_eq_zero (vr : List GoResult) (s : String)
    (h : ∀ r ∈ vr, r.Sector ≠ s) : countSector vr s = 0 := by
  have : vr.filter (fun r => decide (r.Sector = s)) = [] := by
    simp only [List.filter_eq_nil_iff]
    intro r hr
    simpa using h r hr
  simp [countSector, this]

/-- Upserting an absent key appends a fresh entry. -/
theorem upsertSector_of_not_mem (sd : List (String × ℚ × Nat)) (sec : String)
    (ret : ℚ) (h : sec ∉ keysOf sd) :
    upsertSector sd sec ret = sd ++ [(sec, ret, 1)] := by
  induction sd with
  | nil => rfl
  | cons p rest ih =>
    obtain ⟨s, t, c⟩ := p
    simp only [keysOf, List.map_cons, List.mem_cons, not_or] at h
    have hs : ¬ s = sec := fun heq => h.1 heq.symm
    simp only [upsertSector, if_neg hs, List.cons_append, List.cons.injEq, true_and]
    exact ih (by simpa [keysOf] using h.2)

/-- Upserting a present key leaves the key list unchanged. -/
theorem keysOf_upsertSector_mem (sd : List (String × ℚ × Nat)) (sec : String)
    (ret : ℚ) (h : sec ∈ keysOf sd) :
    keysOf (upsertSector sd sec ret) = keysOf sd := by
  induction sd with
  | nil => simp [keysOf] at h
  | cons p rest ih =>
    obtain ⟨s, t, c⟩ := p
    by_cases hs : s = sec
    · simp [upsertSector, hs, keysOf]
    · have h2 : sec ∈ keysOf rest := by
        simp only [keysOf, List.map_cons, List.mem_cons] at h
        rcases h with h | h
        · exact absurd h.symm hs
        · exact h
      simp only [upsertSector, if_neg hs, keysOf, List.map_cons]
      rw [show (upsertSector rest sec ret).map (fun e => e.1) = keysOf (upsertSector rest sec ret) from rfl,
        ih h2]
      rfl

/-- What the entries of an upsert look like, given unique keys: an
untouched entry of another sector, the updated entry of `sec`, or a
fresh entry when `sec` was absent. -/
theorem mem_upsertSector_char (sd : List (String × ℚ × Nat)) (sec : String)
    (ret : ℚ) (hnd : (keysOf sd).Nodup) (e : String × ℚ × Nat)
    (he : e ∈ upsertSector sd sec ret) :
    (e ∈ sd ∧ e.1 ≠ sec) ∨
      (∃ t c, (sec, t, c) ∈ sd ∧ e = (sec, t + ret, c + 1)) ∨
      (sec ∉ keysOf sd ∧ e = (sec, ret, 1)) := by
  induction sd with
  | nil =>
    simp only [upsertSector, List.mem_singleton] at he
    exact Or.inr (Or.inr ⟨by simp [keysOf], he⟩)
  | cons p rest ih =>
    obtain ⟨s, t, c⟩ := p
    simp only [keysOf, List.map_cons, List.nodup_cons] at hnd
    by_cases hs : s = sec
    · subst hs
      simp only [upsertSector, if_pos rfl] at he
      rcases List.mem_cons.mp he with rfl | he2
      · exact Or.inr (Or.inl ⟨t, c, List.mem_cons_self _ _, rfl⟩)
      · have he1 : e.1 ∈ keysOf rest := List.mem_map_of_mem _ he2
        refine Or.inl ⟨List.mem_cons_of_mem _ he2, ?_⟩
        intro heq
        rw [heq] at he1
        exact hnd.1 he1
    · simp only [upsertSector, if_neg hs] at he
      rcases List.mem_cons.mp he with rfl | he2
      · exact Or.inl ⟨List.mem_cons_self _ _, hs⟩
      · have hnd2 : (keysOf rest).Nodup := hnd.2
        rcases ih hnd2 he2 with ⟨h1, h2⟩ | ⟨t2, c2, hm, heq⟩ | ⟨hnm, heq⟩
        · exact Or.inl ⟨List.mem_cons_of_mem _ h1, h2⟩
        · exact Or.inr (Or.inl ⟨t2, c2, List.mem_cons_of_mem _ hm, heq⟩)
        · refine Or.inr (Or.inr ⟨?_, heq⟩)
          simp only [keysOf, List.map_cons, List.mem_cons, not_or]
          exact ⟨fun hx => hs hx.symm, by simpa [keysOf] using hnm⟩

/-- One collection step preserves the sector invariant. -/
theorem collectStep_sectorInv (st : CollectSt)
    (a : Instrument × Except String MTDResult)
    (h : SectorInv st.validResults st.sectorData) :
    SectorInv (collectStep st a).validResults (collectStep st a).sectorData := by
  obtain ⟨hnd, hval, hkey⟩ := h
  cases ha : a.2 with
  | error e => simpa [collectStep, ha] using ⟨hnd, hval, hkey⟩
  | ok m =>
    simp only [collectStep, ha]
    by_cases hmem : (mkGoResult a.1 m).Sector ∈ keysOf st.sectorData
    · refine ⟨?_, ?_, ?_⟩
      · rw [keysOf_upsertSector_mem _ _ _ hmem]
        exact hnd
      · intro e he
        rcases mem_upsertSector_char _ _ _ hnd e he with
          ⟨h1, h2⟩ | ⟨t, c, hm, heq⟩ | ⟨hnm, _⟩
        · obtain ⟨hs, hc, hpos⟩ := hval e h1
          refine ⟨?_, ?_, hpos⟩
          · rw [sumReturns_append, if_neg (fun hx => h2 hx.symm), add_zero]
            exact hs
          · rw [countSector_append, if_neg (fun hx => h2 hx.symm), add_zero]
            exact hc
        · obtain ⟨hs, hc, hpos⟩ := hval _ hm
          subst heq
          refine ⟨?_, ?_, by simp⟩
          · show t + (mkGoResult a.1 m).Return
              = sumReturns (st.validResults ++ [mkGoResult a.1 m]) (mkGoResult a.1 m).Sector
            rw [sumReturns_append, if_pos rfl]
            rw [show t = sumReturns st.validResults (mkGoResult a.1 m).Sector from hs]
          · show c + 1
              = countSector (st.validResults ++ [mkGoResult a.1 m]) (mkGoResult a.1 m).Sector
            rw [countSector_append, if_pos rfl]
            rw [show c = countSector st.validResults (mkGoResult a.1 m).Sector from hc]
        · exact absurd hmem hnm
      · intro r2 hr2
        rw [keysOf_upsertSector_mem _ _ _ hmem]
        rcases List.mem_append.mp hr2 with h2 | h2
        · exact hkey r2 h2
        · rw [List.mem_singleton.mp h2]
          exact hmem
    · rw [upsertSector_of_not_mem _ _ _ hmem]
      refine ⟨?_, ?_, ?_⟩
      · simp only [keysOf, List.map_append, List.map_cons, List.map_nil]
        rw [List.nodup_append]
        refine ⟨hnd, List.nodup_singleton _, ?_⟩
        intro a2 ha2 hb2
        rw [List.mem_singleton.mp hb2] at ha2
        exact hmem ha2
      · intro e he
        rcases List.mem_append.mp he with h1 | h1
        · obtain ⟨hs, hc, hpos⟩ := hval e h1
          have hne : ¬ (mkGoResult a.1 m).Sector = e.1 :=
            fun hx => hmem (hx ▸ List.mem_map_of_mem _ h1)
          refine ⟨?_, ?_, hpos⟩
          · rw [sumReturns_append, if_neg hne, add_zero]
            exact hs
          · rw [countSector_append, if_neg hne, add_zero]
            exact hc
        · rw [List.mem_singleton.mp h1]
          have hnot : ∀ r2 ∈ st.validResults, r2.Sector ≠ (mkGoResult a.1 m).Sector :=
            fun r2 h2 hx => hmem (hx ▸ hkey r2 h2)
          refine ⟨?_, ?_, by simp⟩
          · show (mkGoResult a.1 m).Return
              = sumReturns (st.validResults ++ [mkGoResult a.1 m]) (mkGoResult a.1 m).Sector
            rw [sumReturns_append, if_pos rfl, sumReturns_eq_zero _ _ hnot, zero_add]
          · show (1 : Nat)
              = countSector (st.validResults ++ [mkGoResult a.1 m]) (mkGoResult a.1 m).Sector
            rw [countSector_append, if_pos rfl, countSector_eq_zero _ _ hnot, zero_add]
      · intro r2 hr2
        simp only [keysOf, List.map_append, List.map_cons, List.map_nil]
        rcases List.mem_append.mp hr2 with h2 | h2
        · exact List.mem_append_left _ (hkey r2 h2)
        · rw [List.mem_singleton.mp h2]
          exact List.mem_append_right _ (List.mem_singleton_self _)

/-- The collection fold preserves the sector invariant. -/
theorem foldl_collectStep_sectorInv
    (arr : List (Instrument × Except String MTDResult)) (st : CollectSt)
    (h : SectorInv st.validResults st.sectorData) :
    SectorInv (arr.foldl collectStep st).validResults
      (arr.foldl collectStep st).sectorData := by
  induction arr generalizing st with
  | nil => exact h
  | cons a rest ih => exact ih _ (collectStep_sectorInv st a h)

theorem sumReturns_perm (l1 l2 : List GoResult) (h : l1.Perm l2) (s : String) :
    sumReturns l1 s = sumReturns l2 s :=
  ((h.filter _).map _).sum_eq

theorem countSector_perm (l1 l2 : List GoResult) (h : l1.Perm l2) (s : String) :
    countSector l1 s = countSector l2 s :=
  (h.filter _).length_eq

/-- C6: in every ResultSet the pipeline produces, each sector summary's
`AvgReturn` is the arithmetic mean of the returns of exactly the items
of its sector, and `TickerCount` is the number of such items (and is
positive). -/
theorem getMTDResults_categories_mean (order : List Instrument)
    (data : MarketData) (sr : SectorReturn)
    (hsr : sr ∈ (getMTDResultsCore order data).2) :
    sr.AvgReturn
        = sumReturns (getMTDResultsCore order data).1 sr.Sector
            / (countSector (getMTDResultsCore order data).1 sr.Sector : ℚ) ∧
      sr.TickerCount = countSector (getMTDResultsCore order data).1 sr.Sector ∧
      0 < sr.TickerCount := by
  have hinv := foldl_collectStep_sectorInv (order.map (processJob data))
    collectInit ⟨List.nodup_nil, by simp [collectInit], by simp [collectInit]⟩
  simp only [getMTDResultsCore] at hsr ⊢
  have hsr2 := (mem_sortByAvgDesc _ _).mp hsr
  obtain ⟨e, he, heq⟩ := List.mem_map.mp hsr2
  obtain ⟨hs, hc, hpos⟩ := hinv.2.1 e he
  have hperm := perm_sortByReturnDesc
    ((order.map (processJob data)).foldl collectStep collectInit).validResults
  subst heq
  refine ⟨?_, ?_, hpos⟩
  · rw [sumReturns_perm _ _ hperm, countSector_perm _ _ hperm]
    show e.2.1 / (e.2.2 : ℚ) = _ / _
    rw [← hs, ← hc]
  · rw [countSector_perm _ _ hperm]
    exact hc

/-- Witness for C6 at a two-instrument run: the `Tech` summary averages
exactly the single Tech item's return `1/10` with member count `1`. -/
theorem getMTDResults_categories_mean_witness :
    (⟨"Tech", 1/10, 1⟩ : SectorReturn).AvgReturn
        = sumReturns (getMTDResultsCore
            [⟨"XOM", "Energy"⟩, ⟨"AAPL", "Tech"⟩]
            (fun t => if t = "AAPL" then ([⟨0, 100⟩, ⟨1, 110⟩], none)
                      else ([⟨0, 50⟩, ⟨1, 45⟩], none))).1 "Tech"
            / (countSector (getMTDResultsCore
            [⟨"XOM", "Energy"⟩, ⟨"AAPL", "Tech"⟩]
            (fun t => if t = "AAPL" then ([⟨0, 100⟩, ⟨1, 110⟩], none)
                      else ([⟨0, 50⟩, ⟨1, 45⟩], none))).1 "Tech" : ℚ) ∧
      (⟨"Tech", 1/10, 1⟩ : SectorReturn).TickerCount
        = countSector (getMTDResultsCore
            [⟨"XOM", "Energy"⟩, ⟨"AAPL", "Tech"⟩]
            (fun t => if t = "AAPL" then ([⟨0, 100⟩, ⟨1, 110⟩], none)
                      else ([⟨0, 50⟩, ⟨1, 45⟩], none))).1 "Tech" ∧
      0 < (⟨"Tech", 1/10, 1⟩ : SectorReturn).TickerCount := by
  have h := getMTDResults_categories_mean
    [⟨"XOM", "Energy"⟩, ⟨"AAPL", "Tech"⟩]
    (fun t => if t = "AAPL" then ([⟨0, 100⟩, ⟨1, 110⟩], none)
              else ([⟨0, 50⟩, ⟨1, 45⟩], none))
    ⟨"Tech", 1/10, 1⟩ (by
      have h1 : ("XOM" = "AAPL") = False := by decide
      have h2 : ("Energy" = "Tech") = False := by decide
      norm_num [h1, h2, getMTDResultsCore, processJob, getMTDReturn, scanStep,
        scanInit, collectStep, collectInit, mkGoResult, upsertSector,
        mkSectorReturns, sortByAvgDesc, insertByAvg, decimalToFloat])
  simpa using h

/-! ### Date-window defaulting in `getMTDResults` (part_000, lines 412-419)

`if year == 0 || month == 0 { lastMonth := time.Now().AddDate(0, -1, 0);
year, month, day = lastMonth.Year(), lastMonth.Month(), lastMonth.Day() }`
followed by `start, end := getMonthRange(year, month, day)` with
`getMonthRange` building `start := time.Date(year, month, day, ...)`
(lines 229-233).  `time.Now().AddDate(0,-1,0)` is an external clock read;
we take its date triple as the parameter `lastMonth`. -/

/-- A Go `(year, month, day)` triple. -/
structure GoDate where
  year : Int
  month : Int
  day : Int
deriving DecidableEq, Repr

/-- The parameter-replacement step of `getMTDResults` (part_000 lines
412-417): when year or month is absent (zero), all three of year, month
and day are taken from `lastMonth`. -/
def resolveMTDParams (year month day : Int) (lastMonth : GoDate) : GoDate :=
  if year = 0 ∨ month = 0 then ⟨lastMonth.year, lastMonth.month, lastMonth.day⟩
  else ⟨year, month, day⟩

/-- The window start built by `getMonthRange` (part_000 line 230) from
the resolved triple: `time.Date(year, month, day, 0, 0, 0, 0, UTC)`,
identified by the triple it is built from. -/
def mtdWindowStart (year month day : Int) (lastMonth : GoDate) : GoDate :=
  resolveMTDParams year month day lastMonth

/-- C10: whenever year is 0 or month is 0, all three of year, month and
day are replaced by the previous month's values — the caller-supplied
day is discarded (the resolved triple is independent of it) — and the
window start is built from the replaced triple. -/
theorem resolveMTDParams_replaces_all (year month day : Int)
    (lastMonth : GoDate) (h : year = 0 ∨ month = 0) :
    resolveMTDParams year month day lastMonth
        = ⟨lastMonth.year, lastMonth.month, lastMonth.day⟩ ∧
      (∀ day2 : Int, resolveMTDParams year month day2 lastMonth
        = resolveMTDParams year month day lastMonth) ∧
      mtdWindowStart year month day lastMonth
        = ⟨lastMonth.year, lastMonth.month, lastMonth.day⟩ := by
  refine ⟨?_, ?_, ?_⟩ <;> simp [resolveMTDParams, mtdWindowStart, h]

/-- Witness for C10 at `year = 0, month = 5, day = 17`,
`lastMonth = 2025-09-10`: the supplied day 17 is discarded. -/
theorem resolveMTDParams_replaces_all_witness :
    resolveMTDParams 0 5 17 ⟨2025, 9, 10⟩ = ⟨2025, 9, 10⟩ ∧
      (∀ day2 : Int, resolveMTDParams 0 5 day2 ⟨2025, 9, 10⟩
        = resolveMTDParams 0 5 17 ⟨2025, 9, 10⟩) ∧
      mtdWindowStart 0 5 17 ⟨2025, 9, 10⟩ = ⟨2025, 9, 10⟩ :=
  resolveMTDParams_replaces_all 0 5 17 ⟨2025, 9, 10⟩ (Or.inl rfl)

/-! ### `handleRefresh` and fatal source-acquisition errors
(part_000 lines 86-125 and 410-557)

`handleRefresh` calls `getMTDResults` and has an error branch
(`http.Error(w, "Failed to refresh data: ...", 500)`), but
`getMTDResults` handles a `getSP500Tickers` failure with
`log.Fatalf` (lines 426-429), which terminates the whole process, and
otherwise always returns a nil error (line 556).  We model the three
possible fates of a refresh request. -/

/-- Outcome of one HTTP refresh request. -/
inductive RefreshOutcome where
  | processExit
  | httpError (status : Nat) (msg : String)
  | jsonSuccessTrue
deriving DecidableEq, Repr

/-- `getMTDResults` including its ticker-source step: `none` models the
`log.Fatalf` process termination on a scrape failure; otherwise the
pipeline runs and the function returns `(validResults, nil)` — its error
result is always nil. -/
def getMTDResultsFull (tickerSrc : Except String (List Instrument))
    (order : List Instrument) (data : MarketData) :
    Option (List GoResult × Option String) :=
  match tickerSrc with
  | .error _ => none
  | .ok _ => some ((getMTDResultsCore order data).1, none)

/-- `handleRefresh` (part_000 lines 86-125) composed with the server
store: the second component is the snapshot the server serves afterwards
(`none` when the process has terminated and serves nothing at all). -/
def handleRefresh (prev : List GoResult)
    (tickerSrc : Except String (List Instrument))
    (order : List Instrument) (data : MarketData) :
    RefreshOutcome × Option (List GoResult) :=
  match getMTDResultsFull tickerSrc order data with
  | none => (.processExit, none)
  | some (_, some e) =>
    (.httpError 500 ("Failed to refresh data: " ++ e), some prev)
  | some (results, none) => (.jsonSuccessTrue, some results)

/-- C3 (evaluation at the failing input): when the ticker scrape fails,
the refresh request ends in process termination — not in any HTTP
response (neither an error response nor `success:true`) — and the
previously installed snapshot is not kept being served (the process is
gone), contradicting the claim that the endpoint reports `success:false`
and readers keep the last good snapshot. -/
theorem handleRefresh_fatal_terminates (prev : List GoResult) (e : String)
    (order : List Instrument) (data : MarketData) :
    handleRefresh prev (Except.error e) order data
        = (RefreshOutcome.processExit, none) ∧
      (∀ status msg, RefreshOutcome.processExit
        ≠ RefreshOutcome.httpError status msg) ∧
      RefreshOutcome.processExit ≠ RefreshOutcome.jsonSuccessTrue ∧
      (none : Option (List GoResult)) ≠ some prev := by
  refine ⟨rfl, ?_, ?_, ?_⟩ <;> intros <;> simp

/-! ### Cache / refresh interleaving (part_000: `Server`, `UpdateResults`,
`handleAPI`, `getMTDResults`)

`Server` guards `results` with a `sync.RWMutex`: `UpdateResults` installs
under `mu.Lock()`, `handleAPI` reads under `mu.RLock()`.  A refresh
builds `validResults` entirely in locals of `getMTDResults` and only the
finished, sorted slice reaches `UpdateResults`.  We model the
interleaving of any number of in-flight refreshes with readers as a
small-step transition system: a refresh state records its original job
list (`input`, the local `tickers`/`sectors` slices), the jobs not yet
completed (`todo`), the completion history (`done`, the order results
were received), and the local collection state (`built`).  The system
state records the installed slice (`stored`), the read-lock count, the
write-lock holder, and the in-flight refreshes. -/

/-- One in-flight `getMTDResults` call. -/
structure RefreshSt where
  input : List Instrument
  todo : List Instrument
  done : List Instrument
  built : CollectSt
deriving DecidableEq, Repr

/-- The server plus all in-flight refreshes.  `writer = some i` means
refresh `i` holds `mu.Lock()`; `readers` counts `mu.RLock()` holders. -/
structure Sys where
  stored : List GoResult
  readers : Nat
  writer : Option Nat
  refreshes : List RefreshSt
deriving DecidableEq, Repr

/-- Initial state: `results` never populated (empty), lock free, every
refresh at its start (jobs fetched, nothing dispatched). -/
def initSys (inputs : List (List Instrument)) : Sys :=
  { stored := []
    readers := 0
    writer := none
    refreshes := inputs.map fun inp => ⟨inp, inp, [], collectInit⟩ }

/-- The refresh-state update of one completed job: the job moves out of
the pending set, is appended to the completion history, and its result
is folded into the local collection state. -/
def workUpdate (data : MarketData) (r : RefreshSt) (j : Instrument)
    (l1 l2 : List Instrument) : RefreshSt :=
  ⟨r.input, l1 ++ l2, r.done ++ [j], collectStep r.built (processJob data j)⟩

/-- Interleaved execution steps.  `work` completes any still-pending job
of a refresh (results arrive in arbitrary order); `rlock`/`runlock`
bracket a read (`handleAPI`, which returns `stored` while holding the
read lock); `wlock`/`install`/`wunlock` are `UpdateResults`: acquire
`mu.Lock()` (only when no reader and no writer holds the lock, and only
after the refresh's pipeline has completed every job), swap in the
fully-built sorted slice, release. -/
inductive Step (data : MarketData) : Sys → Sys → Prop
  | work (s : Sys) (i : Nat) (r : RefreshSt) (j : Instrument)
      (l1 l2 : List Instrument) (hr : s.refreshes[i]? = some r)
      (ht : r.todo = l1 ++ j :: l2) :
      Step data s
        { s with refreshes := s.refreshes.set i (workUpdate data r j l1 l2) }
  | rlock (s : Sys) (hw : s.writer = none) :
      Step data s { s with readers := s.readers + 1 }
  | runlock (s : Sys) (h : 0 < s.readers) :
      Step data s { s with readers := s.readers - 1 }
  | wlock (s : Sys) (i : Nat) (r : RefreshSt)
      (hr : s.refreshes[i]? = some r) (ht : r.todo = [])
      (hw : s.writer = none) (hrd : s.readers = 0) :
      Step data s { s with writer := some i }
  | install (s : Sys) (i : Nat) (r : RefreshSt)
      (hr : s.refreshes[i]? = some r) (hw : s.writer = some i)
      (ht : r.todo = []) :
      Step data s { s with stored := sortByReturnDesc r.built.validResults }
  | wunlock (s : Sys) (i : Nat) (hw : s.writer = some i) :
      Step data s { s with writer := none }

/-- Reachability from the initial state. -/
inductive Reach (data : MarketData) (inputs : List (List Instrument)) :
    Sys → Prop
  | init : Reach data inputs (initSys inputs)
  | step {s s2 : Sys} : Reach data inputs s → Step data s s2 →
      Reach data inputs s2

/-- The inductive system invariant: the lock is never held by a writer
while readers hold it; every in-flight refresh's job list is one of the
initial inputs, its completion history plus pending jobs is exactly that
job list, and its local build state is the fold of the completion
history; and the installed slice is either the never-populated empty
state or the full pipeline output on the complete job list of one of the
refreshes. -/
def SysInv (data : MarketData) (inputs : List (List Instrument))
    (s : Sys) : Prop :=
  (s.writer = none ∨ s.readers = 0) ∧
    (∀ r ∈ s.refreshes, r.input ∈ inputs ∧ (r.done ++ r.todo).Perm r.input ∧
      r.built = (r.done.map (processJob data)).foldl collectStep collectInit) ∧
    (s.stored = [] ∨ ∃ inp ∈ inputs, ∃ order : List Instrument,
      order.Perm inp ∧ s.stored = (getMTDResultsCore order data).1)

theorem sysInv_init (data : MarketData) (inputs : List (List Instrument)) :
    SysInv data inputs (initSys inputs) := by
  refine ⟨Or.inl rfl, ?_, Or.inl rfl⟩
  intro r hr
  simp only [initSys, List.mem_map] at hr
  obtain ⟨inp, hinp, rfl⟩ := hr
  exact ⟨hinp, by simp, rfl⟩

theorem sysInv_step (data : MarketData) (inputs : List (List Instrument))
    (s s2 : Sys) (hinv : SysInv data inputs s) (hstep : Step data s s2) :
    SysInv data inputs s2 := by
  obtain ⟨hlock, href, hstored⟩ := hinv
  cases hstep with
  | work i r j l1 l2 hr ht =>
    refine ⟨hlock, ?_, hstored⟩
    intro r2 hr2
    rcases List.mem_or_eq_of_mem_set hr2 with h2 | h2
    · exact href r2 h2
    · subst h2
      have hrmem : r ∈ s.refreshes := List.getElem?_mem hr
      obtain ⟨hin, hperm, hbuilt⟩ := href r hrmem
      refine ⟨hin, ?_, ?_⟩
      · show ((r.done ++ [j]) ++ (l1 ++ l2)).Perm r.input
        refine List.Perm.trans ?_ hperm
        have he : (r.done ++ [j]) ++ (l1 ++ l2)
            = r.done ++ (j :: (l1 ++ l2)) := by
          rw [List.append_assoc]
          rfl
        rw [he, ht]
        exact List.Perm.append_left _ (List.perm_middle).symm
      · show collectStep r.built (processJob data j)
          = ((r.done ++ [j]).map (processJob data)).foldl collectStep collectInit
        rw [List.map_append, List.foldl_append, hbuilt]
        rfl
  | rlock hw => exact ⟨Or.inl hw, href, hstored⟩
  | runlock h =>
    refine ⟨?_, href, hstored⟩
    rcases hlock with h1 | h1
    · exact Or.inl h1
    · exact Or.inr (by simp [h1])
  | wlock i r hr ht hw hrd => exact ⟨Or.inr hrd, href, hstored⟩
  | install i r hr hw ht =>
    refine ⟨hlock, href, ?_⟩
    have hrmem : r ∈ s.refreshes := List.getElem?_mem hr
    obtain ⟨hin, hperm, hbuilt⟩ := href r hrmem
    rw [ht, List.append_nil] at hperm
    refine Or.inr ⟨r.input, hin, r.done, hperm, ?_⟩
    show sortByReturnDesc r.built.validResults = _
    rw [hbuilt]
    rfl
  | wunlock i hw => exact ⟨Or.inl rfl, href, hstored⟩

theorem sysInv_of_reach (data : MarketData) (inputs : List (List Instrument))
    (s : Sys) (h : Reach data inputs s) : SysInv data inputs s := by
  induction h with
  | init => exact sysInv_init data inputs
  | step hr hs ih => exact sysInv_step data inputs _ _ ih hs

/-- C2: in every reachable interleaving of reads with in-flight
refreshes, (a) the write lock and read locks are mutually exclusive —
the installer never runs while a reader holds the lock — and (b) the
installed slice that a read (`handleAPI`, returning `stored` under the
read lock) observes is always either the never-populated empty snapshot
or the complete pipeline output on the full job list of one refresh:
never a partially built one.  The replacement slice is built entirely in
the refresh's local state (`built`) and only installed once its `todo`
list is empty. -/
theorem server_snapshot_complete (data : MarketData)
    (inputs : List (List Instrument)) (s : Sys)
    (h : Reach data inputs s) :
    (s.writer = none ∨ s.readers = 0) ∧
      (s.stored = [] ∨ ∃ inp ∈ inputs, ∃ order : List Instrument,
        order.Perm inp ∧ s.stored = (getMTDResultsCore order data).1) := by
  obtain ⟨h1, _, h3⟩ := sysInv_of_reach data inputs s h
  exact ⟨h1, h3⟩

/-- Witness for C2: a concrete reachable state — one refresh over one
instrument, with a reader holding the read lock — observed mid-flight. -/
theorem server_snapshot_complete_witness :
    ((initSys [[⟨"AAPL", "Tech"⟩]]).readers + 1 = 1 ∨ True) ∧
      ((({ initSys [[⟨"AAPL", "Tech"⟩]] with readers := 1 } : Sys).writer = none ∨
          ({ initSys [[⟨"AAPL", "Tech"⟩]] with readers := 1 } : Sys).readers = 0) ∧
        (({ initSys [[⟨"AAPL", "Tech"⟩]] with readers := 1 } : Sys).stored = [] ∨
          ∃ inp ∈ [[(⟨"AAPL", "Tech"⟩ : Instrument)]], ∃ order : List Instrument,
            order.Perm inp ∧
              ({ initSys [[⟨"AAPL", "Tech"⟩]] with readers := 1 } : Sys).stored
                = (getMTDResultsCore order (fun _ => ([], none))).1)) := by
  refine ⟨Or.inr trivial, ?_⟩
  exact server_snapshot_complete (fun _ => ([], none)) [[⟨"AAPL", "Tech"⟩]]
    ({ initSys [[⟨"AAPL", "Tech"⟩]] with readers := 1 })
    (Reach.step Reach.init (Step.rlock _ rfl))

end Omaha
